/-
  Verification of the "where-money-go" personal finance tracker core.

  Shallow embedding of the core logic:
  * duplicate reconciliation on import        (App.tsx, handleMappingComplete)
  * payee pattern extraction                  (utils/payeeRules.ts, extractPayeePattern)
  * payee renaming rules                      (utils/payeeRules.ts, applyRenamingRules)
  * categorization / bulk-apply controller    (components/TransactionList.tsx)
  * category taxonomy loader and hierarchy    (utils/categoryLoader.ts)
  * subscription aggregation                  (components/Analytics.tsx)

  JavaScript `Date.getTime()` instants are embedded as `Int` (milliseconds),
  JavaScript numbers as `ℚ` (the code only compares and sums them, and rows
  with NaN date/amount are discarded before any logic modelled here).
  The JavaScript `RegExp` platform object is modelled abstractly by a
  `RegexEngine` parameter wherever the code compiles user-supplied patterns;
  the fixed date-stripping regexes of `extractPayeePattern` are translated
  concretely, character by character.
-/
import Mathlib

namespace WhereMoneyGo

/-! ### JavaScript string primitives -/

/-- The ASCII part of the JavaScript `\s` class (and of `String.prototype.trim`). -/
def jsSpace (c : Char) : Bool :=
  c == ' ' || c == '\t' || c == '\n' || c == '\r' || c == Char.ofNat 11 || c == Char.ofNat 12

/-- Embeds `String.prototype.trim`: drop whitespace from both ends (on char lists). -/
def jsTrimList (l : List Char) : List Char :=
  ((l.dropWhile jsSpace).reverse.dropWhile jsSpace).reverse

/-- Embeds `String.prototype.trim` on strings. -/
def jsTrim (s : String) : String :=
  String.mk (jsTrimList s.data)

/-- Embeds `String.prototype.toLowerCase` (ASCII). -/
def jsLower (s : String) : String :=
  String.mk (s.data.map Char.toLower)

/-- Does `l` start with `pre`? (helper for substring containment). -/
def listStartsWith : List Char → List Char → Bool
  | _, [] => true
  | [], _ :: _ => false
  | c :: cs, d :: ds => c == d && listStartsWith cs ds

/-- Embeds `String.prototype.includes`: contiguous substring containment. -/
def listContainsSub : List Char → List Char → Bool
  | l, needle =>
    if listStartsWith l needle then true
    else match l with
      | [] => false
      | _ :: cs => listContainsSub cs needle

/-! ### Transactions and duplicate reconciliation (App.tsx) -/

/-- A parsed transaction record (the fields the modelled logic reads/writes). -/
structure Txn where
  id : String
  date : Int
  payee : String
  amount : ℚ
  category : Option String := none
  tags : List String := []
  isSaving : Bool := false
deriving DecidableEq, Repr

/-- Embeds `transactions.some(existingTxn => existingTxn.date.getTime() === newTxn.date.getTime()
    && existingTxn.payee === newTxn.payee && existingTxn.amount === newTxn.amount)` -/
def isDuplicateOf (existing : List Txn) (t : Txn) : Bool :=
  existing.any fun e => decide (e.date = t.date ∧ e.payee = t.payee ∧ e.amount = t.amount)

/-- Duplicate reconciliation of `handleMappingComplete` (App.tsx lines 112-135):
    under the "strict" policy a parsed row index enters `duplicateIndices` iff the
    3-field predicate holds against the existing store (the predicate depends only
    on the row's value, so the index-set filter is a value-level filter); any other
    policy string computes no duplicates.  Returns `(accepted, skippedCount)`. -/
def reconcile (incoming existing : List Txn) (policy : String) : List Txn × Nat :=
  if policy = "strict" then
    (incoming.filter (fun t => ! isDuplicateOf existing t),
     incoming.countP (fun t => isDuplicateOf existing t))
  else
    (incoming, 0)

theorem countP_add_length_filter_not (p : Txn → Bool) (l : List Txn) :
    l.countP p + (l.filter (fun a => ! p a)).length = l.length := by
  induction l with
  | nil => simp
  | cons a l ih =>
    by_cases h : p a = true
    · simp [List.countP_cons, List.filter_cons, h]; omega
    · simp only [Bool.not_eq_true] at h
      simp [List.countP_cons, List.filter_cons, h]; omega

theorem reconcile_strict (incoming existing : List Txn) :
    reconcile incoming existing "strict"
      = (incoming.filter (fun t => ! isDuplicateOf existing t),
         incoming.countP (fun t => isDuplicateOf existing t)) := by
  simp [reconcile]

theorem reconcile_off (incoming existing : List Txn) :
    reconcile incoming existing "off" = (incoming, 0) := by
  simp [reconcile]

/-- C1 -- Under the "strict" policy the accepted list is exactly the incoming list
with every transaction removed that agrees with some existing transaction on date
instant, raw payee and amount; the skipped count is the number of removed
transactions; under the "off" policy the incoming list passes through unchanged
with skipped count 0. -/
theorem reconcile_strict_and_off_spec (incoming existing : List Txn) :
    (reconcile incoming existing "strict").1
      = incoming.filter (fun t => ! isDuplicateOf existing t)
    ∧ (∀ t : Txn, isDuplicateOf existing t = true ↔
        ∃ e ∈ existing, e.date = t.date ∧ e.payee = t.payee ∧ e.amount = t.amount)
    ∧ (reconcile incoming existing "strict").2
        = incoming.length - (reconcile incoming existing "strict").1.length
    ∧ reconcile incoming existing "off" = (incoming, 0) := by
  refine ⟨by rw [reconcile_strict], ?_, ?_, reconcile_off incoming existing⟩
  · intro t
    simp [isDuplicateOf, List.any_eq_true]
  · rw [reconcile_strict]
    have h := countP_add_length_filter_not (fun t => isDuplicateOf existing t) incoming
    simp only []
    omega

/-- C6 -- Importing a batch (under any policy) appends the accepted transactions to
the store; re-importing the identical batch against the grown store under the
"strict" policy accepts nothing and skips the whole batch. -/
theorem reimport_identical_batch_skips_all (batch store : List Txn) (policy : String) :
    reconcile batch (store ++ (reconcile batch store policy).1) "strict"
      = ([], batch.length) := by
  have hdup : ∀ t ∈ batch,
      isDuplicateOf (store ++ (reconcile batch store policy).1) t = true := by
    intro t ht
    simp only [isDuplicateOf, List.any_eq_true, List.mem_append]
    by_cases hs : isDuplicateOf store t = true
    · rcases (List.any_eq_true).mp hs with ⟨e, he, hmatch⟩
      exact ⟨e, Or.inl he, hmatch⟩
    · refine ⟨t, Or.inr ?_, by simp⟩
      simp only [reconcile]
      by_cases hp : policy = "strict"
      · simp only [if_pos hp]
        exact List.mem_filter.mpr ⟨ht, by simp [hs]⟩
      · simp only [if_neg hp]
        exact ht
  rw [reconcile_strict, Prod.mk.injEq]
  constructor
  · rw [List.filter_eq_nil_iff]
    intro t ht
    simp [hdup t ht]
  · rw [List.countP_eq_length]
    intro t ht
    exact hdup t ht

/-- C10 -- Duplicate detection compares incoming transactions only against the
pre-existing store: if no incoming transaction matches any existing one, the whole
batch is accepted (intra-batch duplicates included) and nothing is skipped. -/
theorem intra_batch_duplicates_not_detected (incoming existing : List Txn)
    (h : ∀ t ∈ incoming,
        ¬ ∃ e ∈ existing, e.date = t.date ∧ e.payee = t.payee ∧ e.amount = t.amount) :
    (reconcile incoming existing "strict").1 = incoming
      ∧ (reconcile incoming existing "strict").2 = 0 := by
  have hfalse : ∀ t ∈ incoming, isDuplicateOf existing t = false := by
    intro t ht
    rw [← Bool.not_eq_true]
    intro hdup
    exact h t ht (by simpa [isDuplicateOf, List.any_eq_true] using hdup)
  constructor
  · rw [reconcile_strict]
    rw [List.filter_eq_self]
    intro t ht
    simp [hfalse t ht]
  · rw [reconcile_strict]
    rw [List.countP_eq_zero]
    intro t ht
    simp [hfalse t ht]

/-- Witness for C10: a batch holding the same transaction twice, matching nothing
in the store, is accepted whole with skipped count 0. -/
theorem intra_batch_duplicates_not_detected_witness :
    (reconcile
        [⟨"a", 100, "COFFEE", -3, none, [], false⟩,
         ⟨"b", 100, "COFFEE", -3, none, [], false⟩]
        [⟨"c", 200, "RENT", -900, none, [], false⟩] "strict").1
      = [⟨"a", 100, "COFFEE", -3, none, [], false⟩,
         ⟨"b", 100, "COFFEE", -3, none, [], false⟩]
    ∧ (reconcile
        [⟨"a", 100, "COFFEE", -3, none, [], false⟩,
         ⟨"b", 100, "COFFEE", -3, none, [], false⟩]
        [⟨"c", 200, "RENT", -900, none, [], false⟩] "strict").2 = 0 :=
  intra_batch_duplicates_not_detected _ _ (by decide)

/-! ### Payee pattern extraction (utils/payeeRules.ts, extractPayeePattern)

The four date-stripping regexes are fixed, so they are translated concretely.
Each is anchored at the end of the string (`$`, no `m` flag) and cannot match
the empty string, so with the `g` flag it fires at most once, at the leftmost
position whose suffix matches it in full; replacing that match by the empty
string keeps exactly the characters before the match.  Greedy sub-matching is
equivalent to maximal munch here because `[&/]` and `\d` never match
whitespace and `\d` never matches whitespace either. -/

/-- Embeds `\d{2,4}\s*$`: two to four digits followed by nothing but whitespace. -/
def digitsTail24 (l : List Char) : Bool :=
  (2 ≤ (l.takeWhile Char.isDigit).length && (l.takeWhile Char.isDigit).length ≤ 4)
    && (l.dropWhile Char.isDigit).all jsSpace

/-- Full-suffix match of `\s*[&/]\d{2}-\d{2}-\d{2,4}\s*$`. -/
def dateSfxSep (l : List Char) : Bool :=
  match l.dropWhile jsSpace with
  | c :: a :: b :: '-' :: d :: e :: '-' :: rest =>
    (c == '&' || c == '/') && a.isDigit && b.isDigit && d.isDigit && e.isDigit
      && digitsTail24 rest
  | _ => false

/-- Full-suffix match of `\s*\d{2}-\d{2}-\d{2,4}\s*$`. -/
def dateSfxDash (l : List Char) : Bool :=
  match l.dropWhile jsSpace with
  | a :: b :: '-' :: d :: e :: '-' :: rest =>
    a.isDigit && b.isDigit && d.isDigit && e.isDigit && digitsTail24 rest
  | _ => false

/-- Full-suffix match of `\s*\d{4}-\d{2}-\d{2}\s*$`. -/
def dateSfxISO (l : List Char) : Bool :=
  match l.dropWhile jsSpace with
  | a :: b :: c :: d :: '-' :: e :: f :: '-' :: g :: h :: rest =>
    a.isDigit && b.isDigit && c.isDigit && d.isDigit && e.isDigit && f.isDigit
      && g.isDigit && h.isDigit && rest.all jsSpace
  | _ => false

/-- Full-suffix match of `\s*\d{2}/\d{2}/\d{2,4}\s*$`. -/
def dateSfxSlash (l : List Char) : Bool :=
  match l.dropWhile jsSpace with
  | a :: b :: '/' :: d :: e :: '/' :: rest =>
    a.isDigit && b.isDigit && d.isDigit && e.isDigit && digitsTail24 rest
  | _ => false

/-- Index of the leftmost position whose suffix satisfies `p` (the position at
    which the JavaScript regex engine finds the end-anchored match). -/
def firstMatch (p : List Char → Bool) : List Char → Option Nat
  | [] => if p [] then some 0 else none
  | c :: cs => if p (c :: cs) then some 0 else (firstMatch p cs).map (fun i => i + 1)

/-- Embeds `payee.replace(endAnchoredRegex, '')`: cut the string at the leftmost
    position whose suffix matches; no match leaves it unchanged. -/
def stripDateSfx (p : List Char → Bool) (l : List Char) : List Char :=
  match firstMatch p l with
  | some i => l.take i
  | none => l

/-- Embeds `extractPayeePattern` (payeeRules.ts lines 93-104): the four replaces in
    source order, then `trim()`. -/
def extractPayeePattern (payee : String) : String :=
  String.mk (jsTrimList (stripDateSfx dateSfxSlash (stripDateSfx dateSfxISO
    (stripDateSfx dateSfxDash (stripDateSfx dateSfxSep payee.data)))))

/-- No suffix of `l` matches any of the four trailing-date shapes. -/
def noTrailingDate (l : List Char) : Bool :=
  (firstMatch dateSfxSep l).isNone && (firstMatch dateSfxDash l).isNone
    && (firstMatch dateSfxISO l).isNone && (firstMatch dateSfxSlash l).isNone

theorem stripDateSfx_of_none {p : List Char → Bool} {l : List Char}
    (h : firstMatch p l = none) : stripDateSfx p l = l := by
  simp [stripDateSfx, h]

/-- C5 counterexample: the separator class `[&/]` consumes a single character,
so on `"JOES GRILL &/25-11-17"` only `"/25-11-17"` is stripped and the result is
`"JOES GRILL &"`, not `"JOES GRILL"` as the claim states. -/
theorem extractPayeePattern_example_refuted :
    extractPayeePattern "JOES GRILL &/25-11-17" ≠ "JOES GRILL" := by decide

/-- C5 (amended) -- A payee with no trailing date-like suffix of the four shapes
is returned unchanged apart from trimming; on `"JOES GRILL &/25-11-17"` the
single-character separator is stripped together with the date, giving
`"JOES GRILL &"`; `"JOES GRILL DOWNTOWN"` is unchanged. -/
theorem extractPayeePattern_spec :
    (∀ s : String, noTrailingDate s.data = true → extractPayeePattern s = jsTrim s)
    ∧ extractPayeePattern "JOES GRILL &/25-11-17" = "JOES GRILL &"
    ∧ extractPayeePattern "JOES GRILL DOWNTOWN" = "JOES GRILL DOWNTOWN" := by
  refine ⟨?_, by decide, by decide⟩
  intro s h
  simp only [noTrailingDate, Bool.and_eq_true, Option.isNone_iff_eq_none] at h
  obtain ⟨⟨⟨h1, h2⟩, h3⟩, h4⟩ := h
  unfold extractPayeePattern jsTrim
  rw [stripDateSfx_of_none h1, stripDateSfx_of_none h2, stripDateSfx_of_none h3,
    stripDateSfx_of_none h4]

/-- Witness for the amended C5 at a concrete no-suffix payee. -/
theorem extractPayeePattern_spec_witness :
    extractPayeePattern " HELLO CAFE 12 " = jsTrim " HELLO CAFE 12 " :=
  extractPayeePattern_spec.1 " HELLO CAFE 12 " (by decide)

/-! ### Category taxonomy (utils/categoryLoader.ts) -/

/-- A flat category record with parent back-reference (types.ts `Category`).
`isSubscription` is the JavaScript truthiness of the optional flag (the loader
always stores a resolved boolean; an absent flag reads as `false`). -/
structure Category where
  name : String
  color : String
  parent : Option String := none
  isSubscription : Bool := false
deriving DecidableEq, Repr

/-- Embeds `allCategories.find(c => c.name === categoryName)`. -/
def findCat (nm : String) (cats : List Category) : Option Category :=
  cats.find? (fun c => decide (c.name = nm))

/-- Index of the first entry named `nm` (`cats.length` if there is none). -/
def catRank (nm : String) (cats : List Category) : Nat :=
  cats.findIdx (fun c => decide (c.name = nm))

/-- The `while (current?.parent)` loop of `getCategoryHierarchy`
(categoryLoader.ts lines 92-102) with explicit fuel.  `cats.length + 1` steps
suffice for every list whose parent references point to earlier entries,
because the walk moves to strictly earlier first occurrences (proved below). -/
def hierAux (cats : List Category) : Nat → List String → Option Category → List String
  | 0, acc, _ => acc
  | _ + 1, acc, none => acc
  | fuel + 1, acc, some c =>
    match c.parent with
    | none => acc
    | some p => hierAux cats fuel (p :: acc) (findCat p cats)

/-- Embeds `getCategoryHierarchy` (ancestor chain, root first, `nm` last). -/
def getCategoryHierarchy (nm : String) (cats : List Category) : List String :=
  hierAux cats (cats.length + 1) [nm] (findCat nm cats)

/-- Embeds `getCategoryLevel` (categoryLoader.ts lines 120-122). -/
def getCategoryLevel (nm : String) (cats : List Category) : Nat :=
  (getCategoryHierarchy nm cats).length - 1

/-- Embeds `getRootCategory` (categoryLoader.ts lines 125-128): `hierarchy[0]`
(the chain is never empty, so the default is never used). -/
def getRootCategory (nm : String) (cats : List Category) : String :=
  (getCategoryHierarchy nm cats).headD nm

/-- The recursion of `getCategoryChildren` (categoryLoader.ts lines 105-117)
with explicit fuel: direct children first, then, per direct child in list
order, that child's recursively collected descendants. -/
def childrenAux (cats : List Category) : Nat → String → List Category
  | 0, _ => []
  | fuel + 1, nm =>
    (cats.filter (fun c => decide (c.parent = some nm)))
      ++ (cats.filter (fun c => decide (c.parent = some nm))).flatMap
          (fun c => childrenAux cats fuel c.name)

/-- Embeds `getCategoryChildren` (all descendants of `nm`). -/
def getCategoryChildren (nm : String) (cats : List Category) : List Category :=
  childrenAux cats (cats.length + 1) nm

mutual
/-- A node of the nested YAML taxonomy source (`YamlCategory`): name, optional
color, optional subscription flag, children (an absent `children` field is the
empty forest). -/
inductive YTree where
  | node (nm : String) (color : Option String) (isSub : Option Bool) (children : YForest)
deriving DecidableEq, Repr

/-- A list of source taxonomy nodes (`YamlCategory[]`). -/
inductive YForest where
  | nil
  | cons (y : YTree) (rest : YForest)
deriving DecidableEq, Repr
end

mutual
/-- One step of `flattenCategories` (categoryLoader.ts lines 16-51) on a single
node: resolve `color = cat.color || parentColor || '#6b7280'` and
`isSubscription = cat.isSubscription ?? parentIsSubscription ?? false`, push the
flat record, then recurse into the children only while `level < 3`. -/
def flattenTree : YTree → Option String → Option String → Option Bool → Nat → List Category
  | YTree.node nm c s ch, pName, pColor, pSub, level =>
    { name := nm, color := c.getD (pColor.getD "#6b7280"), parent := pName,
      isSubscription := s.getD (pSub.getD false) } ::
    (if level < 3 then
      flattenForest ch (some nm) (some (c.getD (pColor.getD "#6b7280")))
        (some (s.getD (pSub.getD false))) (level + 1)
    else [])

/-- Embedding of `flattenCategories` over a node list: each node followed by its (depth
bounded) subtree, in source order. -/
def flattenForest : YForest → Option String → Option String → Option Bool → Nat → List Category
  | YForest.nil, _, _, _, _ => []
  | YForest.cons y rest, pName, pColor, pSub, level =>
    flattenTree y pName pColor pSub level ++ flattenForest rest pName pColor pSub level
end

/-- Embeds `loadCategoriesFromYaml` on a successfully parsed source:
`flattenCategories(data.categories)` with all inherited values absent. -/
def loadCategories (src : YForest) : List Category :=
  flattenForest src none none none 0

/-- Every `parent` reference names an entry occurring strictly earlier in the
list; `seen` holds the names already passed.  Loader outputs always satisfy
this, since the loader pushes a node before its children. -/
def parentsSeen : List Category → List String → Bool
  | [], _ => true
  | c :: rest, seen =>
    (match c.parent with
     | none => true
     | some p => decide (p ∈ seen)) && parentsSeen rest (c.name :: seen)

theorem parentsSeen_mono : ∀ (l : List Category) (seen seen' : List String),
    (∀ x, x ∈ seen → x ∈ seen') →
    parentsSeen l seen = true → parentsSeen l seen' = true := by
  intro l
  induction l with
  | nil => intro seen seen' _ _; rfl
  | cons c rest ih =>
    intro seen seen' hsub h
    simp only [parentsSeen, Bool.and_eq_true] at h ⊢
    refine ⟨?_, ih (c.name :: seen) (c.name :: seen') ?_ h.2⟩
    · have h1 := h.1
      cases hp : c.parent with
      | none => rfl
      | some p =>
        rw [hp] at h1
        simp only [decide_eq_true_eq] at h1 ⊢
        exact hsub p h1
    · intro x hx
      rcases List.mem_cons.mp hx with h1 | h2
      · exact List.mem_cons.mpr (Or.inl h1)
      · exact List.mem_cons.mpr (Or.inr (hsub x h2))

theorem parentsSeen_append : ∀ (l₁ l₂ : List Category) (seen : List String),
    parentsSeen (l₁ ++ l₂) seen
      = (parentsSeen l₁ seen && parentsSeen l₂ ((l₁.map Category.name).reverse ++ seen)) := by
  intro l₁
  induction l₁ with
  | nil => intro l₂ seen; simp [parentsSeen]
  | cons c rest ih =>
    intro l₂ seen
    simp only [List.cons_append, parentsSeen, ih, List.map_cons, List.reverse_cons,
      List.append_assoc, List.singleton_append, Bool.and_assoc, List.append_eq,
      List.nil_append]

mutual
theorem flattenTree_parentsSeen (y : YTree) :
    ∀ (pN : Option String) (pC : Option String) (pS : Option Bool) (lvl : Nat)
      (seen : List String), (∀ p, pN = some p → p ∈ seen) →
      parentsSeen (flattenTree y pN pC pS lvl) seen = true := by
  cases y with
  | node nm c s ch =>
    intro pN pC pS lvl seen hp
    simp only [flattenTree, parentsSeen, Bool.and_eq_true]
    constructor
    · cases hpn : pN with
      | none => rfl
      | some p => simpa using hp p hpn
    · by_cases hl : lvl < 3
      · simp only [if_pos hl]
        exact flattenForest_parentsSeen ch (some nm) _ _ (lvl + 1) (nm :: seen)
          (by intro p hp'; cases hp'; exact List.mem_cons_self _ _)
      · simp only [if_neg hl]; rfl

theorem flattenForest_parentsSeen (f : YForest) :
    ∀ (pN : Option String) (pC : Option String) (pS : Option Bool) (lvl : Nat)
      (seen : List String), (∀ p, pN = some p → p ∈ seen) →
      parentsSeen (flattenForest f pN pC pS lvl) seen = true := by
  cases f with
  | nil => intro pN pC pS lvl seen _; rfl
  | cons y rest =>
    intro pN pC pS lvl seen hp
    simp only [flattenForest, parentsSeen_append, Bool.and_eq_true]
    refine ⟨flattenTree_parentsSeen y pN pC pS lvl seen hp, ?_⟩
    refine parentsSeen_mono _ seen _ ?_
      (flattenForest_parentsSeen rest pN pC pS lvl seen hp)
    intro x hx
    exact List.mem_append.mpr (Or.inr hx)
end

/-- Loader outputs always satisfy `parentsSeen`. -/
theorem loadCategories_parentsSeen (src : YForest) :
    parentsSeen (loadCategories src) [] = true :=
  flattenForest_parentsSeen src none none none 0 [] (by intro p h; cases h)

theorem catRank_cons_of_ne {nm : String} {d : Category} (rest : List Category)
    (hd : ¬ d.name = nm) : catRank nm (d :: rest) = catRank nm rest + 1 := by
  simp [catRank, List.findIdx_cons, hd]

theorem catRank_lt_of_found {nm : String} {cats : List Category} {c : Category}
    (h : findCat nm cats = some c) : catRank nm cats < cats.length := by
  induction cats with
  | nil => simp [findCat] at h
  | cons d rest ih =>
    by_cases hd : d.name = nm
    · simp [catRank, List.findIdx_cons, hd]
    · rw [findCat, List.find?_cons_of_neg _ (by simpa using hd)] at h
      have hlt := ih h
      rw [catRank_cons_of_ne rest hd]
      simp only [List.length_cons]
      omega

theorem found_of_catRank_lt {nm : String} {cats : List Category}
    (h : catRank nm cats < cats.length) :
    ∃ c, findCat nm cats = some c ∧ c.name = nm := by
  induction cats with
  | nil => simp [catRank] at h
  | cons d rest ih =>
    by_cases hd : d.name = nm
    · refine ⟨d, ?_, hd⟩
      rw [findCat]
      exact List.find?_cons_of_pos _ (by simpa using hd)
    · have h' : catRank nm rest < rest.length := by
        rw [catRank_cons_of_ne rest hd] at h
        simp only [List.length_cons] at h
        omega
      obtain ⟨c, hc, hcn⟩ := ih h'
      refine ⟨c, ?_, hcn⟩
      rw [findCat, List.find?_cons_of_neg _ (by simpa using hd)]
      exact hc

theorem rank_parent_lt_aux : ∀ (cats : List Category) (seen : List String),
    parentsSeen cats seen = true →
    ∀ nm c, findCat nm cats = some c → ∀ p, c.parent = some p →
      p ∈ seen ∨ catRank p cats < catRank nm cats := by
  intro cats
  induction cats with
  | nil => intro seen _ nm c h; simp [findCat] at h
  | cons d rest ih =>
    intro seen hps nm c hfind p hp
    simp only [parentsSeen, Bool.and_eq_true] at hps
    by_cases hd : d.name = nm
    · rw [findCat, List.find?_cons_of_pos _ (by simpa using hd)] at hfind
      cases hfind
      have h1 := hps.1
      rw [hp] at h1
      simp only [decide_eq_true_eq] at h1
      exact Or.inl h1
    · rw [findCat, List.find?_cons_of_neg _ (by simpa using hd)] at hfind
      rcases ih (d.name :: seen) hps.2 nm c hfind p hp with hin | hlt
      · rcases List.mem_cons.mp hin with h1 | h2
        · right
          have hr : catRank nm (d :: rest) = catRank nm rest + 1 :=
            catRank_cons_of_ne rest hd
          have hr2 : catRank p (d :: rest) = 0 := by
            simp [catRank, List.findIdx_cons, h1.symm]
          omega
        · exact Or.inl h2
      · right
        have hr : catRank nm (d :: rest) = catRank nm rest + 1 :=
          catRank_cons_of_ne rest hd
        by_cases hdp : d.name = p
        · have : catRank p (d :: rest) = 0 := by simp [catRank, List.findIdx_cons, hdp]
          omega
        · have : catRank p (d :: rest) = catRank p rest + 1 :=
            catRank_cons_of_ne rest hdp
          omega

/-- Following a `parent` link moves to a strictly earlier first occurrence. -/
theorem rank_parent_lt {cats : List Category} (hps : parentsSeen cats [] = true)
    {nm : String} {c : Category} (hfind : findCat nm cats = some c)
    {p : String} (hp : c.parent = some p) :
    catRank p cats < catRank nm cats := by
  rcases rank_parent_lt_aux cats [] hps nm c hfind p hp with hin | hlt
  · cases hin
  · exact hlt

/-- The accumulator of the hierarchy walk is a passive suffix. -/
theorem hierAux_acc (cats : List Category) :
    ∀ (fuel : Nat) (cur : Option Category) (acc : List String),
      hierAux cats fuel acc cur = hierAux cats fuel [] cur ++ acc := by
  intro fuel
  induction fuel with
  | zero => intro cur acc; simp [hierAux]
  | succ n ih =>
    intro cur acc
    cases cur with
    | none => simp [hierAux]
    | some c =>
      cases hc : c.parent with
      | none => simp [hierAux, hc]
      | some p =>
        simp only [hierAux, hc]
        rw [ih (findCat p cats) (p :: acc), ih (findCat p cats) [p]]
        simp

theorem hierAux_fuel_stable (cats : List Category) (hps : parentsSeen cats [] = true) :
    ∀ (k : Nat) (nm : String) (acc : List String) (fuel₁ fuel₂ : Nat),
      catRank nm cats ≤ k → catRank nm cats < fuel₁ → catRank nm cats < fuel₂ →
      hierAux cats fuel₁ acc (findCat nm cats) = hierAux cats fuel₂ acc (findCat nm cats) := by
  intro k
  induction k with
  | zero =>
    intro nm acc fuel₁ fuel₂ hk h1 h2
    obtain ⟨f₁, rfl⟩ : ∃ f, fuel₁ = f + 1 := ⟨fuel₁ - 1, by omega⟩
    obtain ⟨f₂, rfl⟩ : ∃ f, fuel₂ = f + 1 := ⟨fuel₂ - 1, by omega⟩
    cases hf : findCat nm cats with
    | none => rfl
    | some c =>
      cases hc : c.parent with
      | none => simp [hierAux, hc]
      | some p =>
        have := rank_parent_lt hps hf hc
        omega
  | succ k ih =>
    intro nm acc fuel₁ fuel₂ hk h1 h2
    obtain ⟨f₁, rfl⟩ : ∃ f, fuel₁ = f + 1 := ⟨fuel₁ - 1, by omega⟩
    obtain ⟨f₂, rfl⟩ : ∃ f, fuel₂ = f + 1 := ⟨fuel₂ - 1, by omega⟩
    cases hf : findCat nm cats with
    | none => rfl
    | some c =>
      cases hc : c.parent with
      | none => simp [hierAux, hc]
      | some p =>
        have hlt := rank_parent_lt hps hf hc
        simp only [hierAux, hc]
        exact ih p (p :: acc) f₁ f₂ (by omega) (by omega) (by omega)

/-- A missing name yields the singleton chain, for every list. -/
theorem hierarchy_of_missing {nm : String} {cats : List Category}
    (h : findCat nm cats = none) : getCategoryHierarchy nm cats = [nm] := by
  rw [getCategoryHierarchy, h]
  rfl

/-- Every chain ends with the queried name. -/
theorem hierarchy_concat (nm : String) (cats : List Category) :
    ∃ X, getCategoryHierarchy nm cats = X ++ [nm] :=
  ⟨hierAux cats (cats.length + 1) [] (findCat nm cats),
    hierAux_acc cats (cats.length + 1) (findCat nm cats) [nm]⟩

theorem self_mem_hierarchy (nm : String) (cats : List Category) :
    nm ∈ getCategoryHierarchy nm cats := by
  obtain ⟨X, hX⟩ := hierarchy_concat nm cats
  rw [hX]
  simp

/-- The walk recurrence: under `parentsSeen` the chain of a found entry is the
chain of its parent extended by its own name. -/
theorem hierarchy_recurrence {cats : List Category} (hps : parentsSeen cats [] = true)
    {nm : String} {c : Category} (hfind : findCat nm cats = some c) :
    getCategoryHierarchy nm cats
      = match c.parent with
        | none => [nm]
        | some p => getCategoryHierarchy p cats ++ [nm] := by
  cases hc : c.parent with
  | none =>
    show getCategoryHierarchy nm cats = [nm]
    rw [getCategoryHierarchy, hfind]
    simp [hierAux, hc]
  | some p =>
    show getCategoryHierarchy nm cats = getCategoryHierarchy p cats ++ [nm]
    have hrank := catRank_lt_of_found hfind
    have hlt := rank_parent_lt hps hfind hc
    rw [getCategoryHierarchy, hfind]
    simp only [hierAux, hc]
    rw [hierAux_acc cats (cats.length) (findCat p cats) (p :: [nm])]
    rw [getCategoryHierarchy]
    rw [hierAux_acc cats (cats.length + 1) (findCat p cats) [p]]
    rw [hierAux_fuel_stable cats hps (catRank p cats) p [] cats.length (cats.length + 1)
      (le_refl _) (by omega) (by omega)]
    simp

theorem hierarchy_rec_none {cats : List Category} (hps : parentsSeen cats [] = true)
    {nm : String} {c : Category} (hfind : findCat nm cats = some c)
    (hc : c.parent = none) : getCategoryHierarchy nm cats = [nm] := by
  have h := hierarchy_recurrence hps hfind
  rw [hc] at h
  exact h

theorem hierarchy_rec_some {cats : List Category} (hps : parentsSeen cats [] = true)
    {nm : String} {c : Category} {p : String} (hfind : findCat nm cats = some c)
    (hc : c.parent = some p) :
    getCategoryHierarchy nm cats = getCategoryHierarchy p cats ++ [nm] := by
  have h := hierarchy_recurrence hps hfind
  rw [hc] at h
  exact h

theorem root_chain_singleton (cats : List Category) (hps : parentsSeen cats [] = true) :
    ∀ (k : Nat) (nm : String), catRank nm cats ≤ k →
      getCategoryHierarchy (getRootCategory nm cats) cats
        = [getRootCategory nm cats] := by
  intro k
  induction k with
  | zero =>
    intro nm hk
    cases hf : findCat nm cats with
    | none =>
      rw [getRootCategory, hierarchy_of_missing hf]
      simp only [List.headD_cons]
      exact hierarchy_of_missing hf
    | some c =>
      cases hc : c.parent with
      | none =>
        rw [getRootCategory, hierarchy_rec_none hps hf hc]
        simp only [List.headD_cons]
        exact hierarchy_rec_none hps hf hc
      | some p =>
        have := rank_parent_lt hps hf hc
        omega
  | succ k ih =>
    intro nm hk
    cases hf : findCat nm cats with
    | none =>
      rw [getRootCategory, hierarchy_of_missing hf]
      simp only [List.headD_cons]
      exact hierarchy_of_missing hf
    | some c =>
      cases hc : c.parent with
      | none =>
        rw [getRootCategory, hierarchy_rec_none hps hf hc]
        simp only [List.headD_cons]
        exact hierarchy_rec_none hps hf hc
      | some p =>
        have hlt := rank_parent_lt hps hf hc
        have hroot : getRootCategory nm cats = getRootCategory p cats := by
          rw [getRootCategory, getRootCategory, hierarchy_rec_some hps hf hc]
          obtain ⟨X, hX⟩ := hierarchy_concat p cats
          rw [hX]
          cases X with
          | nil => simp
          | cons a as => simp
        rw [hroot]
        exact ih p (by omega)

/-- The identity `level(root(nm)) = 0` holds for every name over any list whose parent
references resolve backwards (in particular every loader output). -/
theorem level_root_zero (cats : List Category) (hps : parentsSeen cats [] = true)
    (nm : String) :
    getCategoryLevel (getRootCategory nm cats) cats = 0 := by
  rw [getCategoryLevel, root_chain_singleton cats hps (catRank nm cats) nm (le_refl _)]
  rfl

/-- The hierarchy walk stabilizes: any fuel beyond the list length computes the
same chain (the embedded counterpart of the source loop terminating). -/
theorem hierarchy_fuel_irrelevant (cats : List Category)
    (hps : parentsSeen cats [] = true) (nm : String) (fuel : Nat)
    (h : cats.length < fuel) :
    hierAux cats fuel [nm] (findCat nm cats) = getCategoryHierarchy nm cats := by
  have hr : catRank nm cats ≤ cats.length := by
    rw [catRank]
    exact List.findIdx_le_length _
  exact hierAux_fuel_stable cats hps (catRank nm cats) nm [nm] fuel (cats.length + 1)
    (le_refl _) (by omega) (by omega)

/-- With globally unique names, looking a member up by name returns it. -/
theorem findCat_of_mem_nodup {cats : List Category}
    (hnd : (cats.map Category.name).Nodup) {c : Category} (hc : c ∈ cats) :
    findCat c.name cats = some c := by
  induction cats with
  | nil => cases hc
  | cons d rest ih =>
    simp only [List.map_cons, List.nodup_cons] at hnd
    rcases List.mem_cons.mp hc with rfl | hmem
    · rw [findCat]
      exact List.find?_cons_of_pos _ (by simp)
    · have hne : ¬ d.name = c.name := by
        intro he
        exact hnd.1 (he ▸ List.mem_map_of_mem Category.name hmem)
      rw [findCat, List.find?_cons_of_neg _ (by simpa using hne)]
      exact ih hnd.2 hmem

mutual
theorem chainLen_tree (full : List Category) (hnd : (full.map Category.name).Nodup)
    (hps : parentsSeen full [] = true) (y : YTree) :
    ∀ (pN pC : Option String) (pS : Option Bool) (lvl : Nat),
      (∀ c, c ∈ flattenTree y pN pC pS lvl → c ∈ full) →
      ((pN = none ∧ lvl = 0) ∨
        (∃ p, pN = some p ∧ (getCategoryHierarchy p full).length = lvl)) →
      lvl ≤ 3 →
      ∀ c ∈ flattenTree y pN pC pS lvl,
        (getCategoryHierarchy c.name full).length ≤ 4 := by
  cases y with
  | node nm co su ch =>
    intro pN pC pS lvl hsub hinv hlvl c hc
    have hhead : ({ name := nm, color := co.getD (pC.getD "#6b7280"), parent := pN, isSubscription := su.getD (pS.getD false) } : Category) ∈ flattenTree (YTree.node nm co su ch) pN pC pS lvl := by
      rw [flattenTree]
      exact List.mem_cons_self _ _
    have hfind := findCat_of_mem_nodup hnd (hsub _ hhead)
    have hlen : (getCategoryHierarchy nm full).length = lvl + 1 := by
      rcases hinv with ⟨hn, hl⟩ | ⟨p, hp, hl⟩
      · subst hn
        rw [hierarchy_rec_none hps hfind rfl]
        simp [hl]
      · subst hp
        rw [hierarchy_rec_some hps hfind rfl]
        simp [hl]
    rw [flattenTree] at hc
    rcases List.mem_cons.mp hc with rfl | hrest
    · have : (getCategoryHierarchy nm full).length ≤ 4 := by omega
      exact this
    · by_cases hl3 : lvl < 3
      · rw [if_pos hl3] at hrest
        exact chainLen_forest full hnd hps ch (some nm) _ _ (lvl + 1)
          (by
            intro c' hc'
            apply hsub
            rw [flattenTree]
            refine List.mem_cons.mpr (Or.inr ?_)
            rw [if_pos hl3]
            exact hc')
          (Or.inr ⟨nm, rfl, hlen⟩) (by omega) c hrest
      · rw [if_neg hl3] at hrest
        cases hrest

theorem chainLen_forest (full : List Category) (hnd : (full.map Category.name).Nodup)
    (hps : parentsSeen full [] = true) (f : YForest) :
    ∀ (pN pC : Option String) (pS : Option Bool) (lvl : Nat),
      (∀ c, c ∈ flattenForest f pN pC pS lvl → c ∈ full) →
      ((pN = none ∧ lvl = 0) ∨
        (∃ p, pN = some p ∧ (getCategoryHierarchy p full).length = lvl)) →
      lvl ≤ 3 →
      ∀ c ∈ flattenForest f pN pC pS lvl,
        (getCategoryHierarchy c.name full).length ≤ 4 := by
  cases f with
  | nil =>
    intro pN pC pS lvl _ _ _ c hc
    rw [flattenForest] at hc
    cases hc
  | cons y rest =>
    intro pN pC pS lvl hsub hinv hlvl c hc
    rw [flattenForest] at hc
    rcases List.mem_append.mp hc with h1 | h2
    · exact chainLen_tree full hnd hps y pN pC pS lvl
        (by
          intro c' hc'
          apply hsub
          rw [flattenForest]
          exact List.mem_append.mpr (Or.inl hc'))
        hinv hlvl c h1
    · exact chainLen_forest full hnd hps rest pN pC pS lvl
        (by
          intro c' hc'
          apply hsub
          rw [flattenForest]
          exact List.mem_append.mpr (Or.inr hc'))
        hinv hlvl c h2
end

/-- C7 (amended) -- The hierarchy queries are total: a name missing from the
list yields the singleton chain for every list, and on loader outputs the walk
stabilizes (extra fuel computes the same chain, i.e. the source loop
terminates).  On every loader output whose category names are globally unique
(the data-model invariant the spec demands), every produced category satisfies
`level(root(c.name)) = 0` and its ancestor chain has at most 4 entries. -/
theorem hierarchy_queries_spec :
    (∀ (cats : List Category) (nm : String), findCat nm cats = none →
        getCategoryHierarchy nm cats = [nm])
    ∧ (∀ (src : YForest) (nm : String) (fuel : Nat),
        (loadCategories src).length < fuel →
        hierAux (loadCategories src) fuel [nm] (findCat nm (loadCategories src))
          = getCategoryHierarchy nm (loadCategories src))
    ∧ (∀ (src : YForest), ((loadCategories src).map Category.name).Nodup →
        ∀ c ∈ loadCategories src,
          getCategoryLevel (getRootCategory c.name (loadCategories src))
              (loadCategories src) = 0
          ∧ (getCategoryHierarchy c.name (loadCategories src)).length ≤ 4) := by
  refine ⟨fun cats nm h => hierarchy_of_missing h, ?_, ?_⟩
  · intro src nm fuel hf
    exact hierarchy_fuel_irrelevant _ (loadCategories_parentsSeen src) nm fuel hf
  · intro src hnd c hc
    have hps := loadCategories_parentsSeen src
    refine ⟨level_root_zero _ hps c.name, ?_⟩
    exact chainLen_forest (loadCategories src) hnd hps src none none none 0
      (fun c' hc' => hc') (Or.inl ⟨rfl, rfl⟩) (by omega) c hc

/-- A nested source in which the name `D` occurs in two different roots: one
at depth 3 of the first tree, once more as the second root with a child `E`. -/
def c7src : YForest :=
  YForest.cons (YTree.node "A" none none
    (YForest.cons (YTree.node "B" none none
      (YForest.cons (YTree.node "C" none none
        (YForest.cons (YTree.node "D" none none YForest.nil) YForest.nil))
        YForest.nil)) YForest.nil))
  (YForest.cons (YTree.node "D" none none
    (YForest.cons (YTree.node "E" none none YForest.nil) YForest.nil)) YForest.nil)

/-- C7 counterexample: on the loader output for `c7src` (names not unique),
the entry `E` has ancestor chain `[A, B, C, D, E]` of length 5 -- the walk from
`E` reaches the first list entry named `D`, which lies at depth 3 of the other
tree.  So "ancestorChain(c.name) has length at most 4" fails for an arbitrary
nested source. -/
theorem hierarchy_chain_length_refuted :
    ∃ c ∈ loadCategories c7src,
      4 < (getCategoryHierarchy c.name (loadCategories c7src)).length := by decide

/-- A well-formed demo taxonomy: Food & Dining -> Restaurants -> Fine Dining. -/
def c7demo : YForest :=
  YForest.cons (YTree.node "Food & Dining" (some "#ef4444") none
    (YForest.cons (YTree.node "Restaurants" none none
      (YForest.cons (YTree.node "Fine Dining" none none YForest.nil) YForest.nil))
      YForest.nil)) YForest.nil

/-- Witness for the amended C7 on a concrete loader output with unique names. -/
theorem hierarchy_queries_spec_witness :
    getCategoryLevel (getRootCategory "Fine Dining" (loadCategories c7demo))
        (loadCategories c7demo) = 0
    ∧ (getCategoryHierarchy "Fine Dining" (loadCategories c7demo)).length ≤ 4 :=
  hierarchy_queries_spec.2.2 c7demo (by decide)
    ⟨"Fine Dining", "#ef4444", some "Restaurants", false⟩ (by decide)

theorem hierarchy_closed_under_mem (cats : List Category)
    (hps : parentsSeen cats [] = true) :
    ∀ (k : Nat) (nm : String), catRank nm cats ≤ k →
      ∀ m ∈ getCategoryHierarchy nm cats,
        ∃ rest, getCategoryHierarchy nm cats = getCategoryHierarchy m cats ++ rest := by
  intro k
  induction k with
  | zero =>
    intro nm hk m hm
    cases hf : findCat nm cats with
    | none =>
      rw [hierarchy_of_missing hf] at hm ⊢
      rcases List.mem_singleton.mp hm with rfl
      exact ⟨[], by simp [hierarchy_of_missing hf]⟩
    | some c =>
      cases hc : c.parent with
      | none =>
        rw [hierarchy_rec_none hps hf hc] at hm ⊢
        rcases List.mem_singleton.mp hm with rfl
        exact ⟨[], by simp [hierarchy_rec_none hps hf hc]⟩
      | some p =>
        have := rank_parent_lt hps hf hc
        omega
  | succ k ih =>
    intro nm hk m hm
    cases hf : findCat nm cats with
    | none =>
      rw [hierarchy_of_missing hf] at hm ⊢
      rcases List.mem_singleton.mp hm with rfl
      exact ⟨[], by simp [hierarchy_of_missing hf]⟩
    | some c =>
      cases hc : c.parent with
      | none =>
        rw [hierarchy_rec_none hps hf hc] at hm ⊢
        rcases List.mem_singleton.mp hm with rfl
        exact ⟨[], by simp [hierarchy_rec_none hps hf hc]⟩
      | some p =>
        have hlt := rank_parent_lt hps hf hc
        rw [hierarchy_rec_some hps hf hc] at hm ⊢
        rcases List.mem_append.mp hm with hmp | hm1
        · obtain ⟨rest, hrest⟩ := ih p (by omega) m hmp
          exact ⟨rest ++ [nm], by rw [hrest, List.append_assoc]⟩
        · rcases List.mem_singleton.mp hm1 with rfl
          exact ⟨[], by rw [hierarchy_rec_some hps hf hc, List.append_nil]⟩

theorem hierarchy_mem_extends {cats : List Category}
    (hps : parentsSeen cats [] = true) {nm m : String}
    (hm : m ∈ getCategoryHierarchy nm cats) :
    ∃ rest, getCategoryHierarchy nm cats = getCategoryHierarchy m cats ++ rest :=
  hierarchy_closed_under_mem cats hps (catRank nm cats) nm (le_refl _) m hm

theorem hierarchy_mem_trans {cats : List Category}
    (hps : parentsSeen cats [] = true) {a b c : String}
    (hab : a ∈ getCategoryHierarchy b cats) (hbc : b ∈ getCategoryHierarchy c cats) :
    a ∈ getCategoryHierarchy c cats := by
  obtain ⟨rest, h⟩ := hierarchy_mem_extends hps hbc
  rw [h]
  exact List.mem_append.mpr (Or.inl hab)

theorem rank_mem_lt_aux (cats : List Category) (hps : parentsSeen cats [] = true) :
    ∀ (k : Nat) (nm : String), catRank nm cats ≤ k →
      ∀ m ∈ getCategoryHierarchy nm cats, m ≠ nm →
        catRank m cats < catRank nm cats := by
  intro k
  induction k with
  | zero =>
    intro nm hk m hm hne
    cases hf : findCat nm cats with
    | none =>
      rw [hierarchy_of_missing hf] at hm
      exact absurd (List.mem_singleton.mp hm) hne
    | some c =>
      cases hc : c.parent with
      | none =>
        rw [hierarchy_rec_none hps hf hc] at hm
        exact absurd (List.mem_singleton.mp hm) hne
      | some p =>
        have := rank_parent_lt hps hf hc
        omega
  | succ k ih =>
    intro nm hk m hm hne
    cases hf : findCat nm cats with
    | none =>
      rw [hierarchy_of_missing hf] at hm
      exact absurd (List.mem_singleton.mp hm) hne
    | some c =>
      cases hc : c.parent with
      | none =>
        rw [hierarchy_rec_none hps hf hc] at hm
        exact absurd (List.mem_singleton.mp hm) hne
      | some p =>
        have hplt := rank_parent_lt hps hf hc
        rw [hierarchy_rec_some hps hf hc] at hm
        rcases List.mem_append.mp hm with hmp | hm1
        · by_cases hmp2 : m = p
          · subst hmp2
            omega
          · have := ih p (by omega) m hmp hmp2
            omega
        · exact absurd (List.mem_singleton.mp hm1) hne

theorem rank_mem_lt {cats : List Category} (hps : parentsSeen cats [] = true)
    {nm m : String} (hm : m ∈ getCategoryHierarchy nm cats) (hne : m ≠ nm) :
    catRank m cats < catRank nm cats :=
  rank_mem_lt_aux cats hps (catRank nm cats) nm (le_refl _) m hm hne

/-- Soundness of the descendant collection: everything collected is a list
member distinct from `nm` whose ancestor chain passes through `nm`. -/
theorem childrenAux_mem_sound (cats : List Category)
    (hnd : (cats.map Category.name).Nodup) (hps : parentsSeen cats [] = true) :
    ∀ (fuel : Nat) (nm : String) (x : Category), x ∈ childrenAux cats fuel nm →
      x ∈ cats ∧ x.name ≠ nm ∧ nm ∈ getCategoryHierarchy x.name cats := by
  intro fuel
  induction fuel with
  | zero =>
    intro nm x hx
    simp [childrenAux] at hx
  | succ fuel ih =>
    intro nm x hx
    rw [childrenAux] at hx
    rcases List.mem_append.mp hx with hdir | hrec
    · have hxc : x ∈ cats ∧ x.parent = some nm := by
        have := List.mem_filter.mp hdir
        simpa using this
      have hfind := findCat_of_mem_nodup hnd hxc.1
      have hchain := hierarchy_rec_some hps hfind hxc.2
      have hne : x.name ≠ nm := by
        intro he
        have := rank_parent_lt hps hfind hxc.2
        rw [he] at this
        omega
      refine ⟨hxc.1, hne, ?_⟩
      rw [hchain]
      exact List.mem_append.mpr (Or.inl (self_mem_hierarchy nm cats))
    · obtain ⟨c, hcdir, hxc⟩ := List.mem_flatMap.mp hrec
      have hcprop : c ∈ cats ∧ c.parent = some nm := by
        have := List.mem_filter.mp hcdir
        simpa using this
      obtain ⟨hxmem, hxne, hcx⟩ := ih c.name x hxc
      have hcfind := findCat_of_mem_nodup hnd hcprop.1
      have hnmc : nm ∈ getCategoryHierarchy c.name cats := by
        rw [hierarchy_rec_some hps hcfind hcprop.2]
        exact List.mem_append.mpr (Or.inl (self_mem_hierarchy nm cats))
      refine ⟨hxmem, ?_, hierarchy_mem_trans hps hnmc hcx⟩
      intro he
      have hcne : c.name ≠ nm := by
        intro he2
        have := rank_parent_lt hps hcfind hcprop.2
        rw [he2] at this
        omega
      have h1 : catRank c.name cats < catRank x.name cats :=
        rank_mem_lt hps hcx (fun h => hxne h.symm)
      have h2 : catRank nm cats < catRank c.name cats :=
        rank_mem_lt hps hnmc hcne.symm
      rw [he] at h1
      omega

/-- The collected descendant set is closed under taking direct children, with
enough fuel. -/
theorem childrenAux_closed (cats : List Category)
    (hnd : (cats.map Category.name).Nodup) (hps : parentsSeen cats [] = true) :
    ∀ (fuel : Nat) (nm : String) (y x : Category),
      cats.length - catRank nm cats < fuel →
      y ∈ childrenAux cats fuel nm →
      x ∈ cats → x.parent = some y.name →
      x ∈ childrenAux cats fuel nm := by
  intro fuel
  induction fuel with
  | zero =>
    intro nm y x hfu hy
    simp [childrenAux] at hy
  | succ fuel ih =>
    intro nm y x hfu hy hx hxp
    have hxfind := findCat_of_mem_nodup hnd hx
    have hxlt : catRank x.name cats < cats.length := catRank_lt_of_found hxfind
    have hyx : catRank y.name cats < catRank x.name cats := rank_parent_lt hps hxfind hxp
    rw [childrenAux] at hy ⊢
    rcases List.mem_append.mp hy with hdir | hrec
    · have hyprop : y ∈ cats ∧ y.parent = some nm := by
        have := List.mem_filter.mp hdir
        simpa using this
      have hyfind := findCat_of_mem_nodup hnd hyprop.1
      have hnmy : catRank nm cats < catRank y.name cats :=
        rank_parent_lt hps hyfind hyprop.2
      refine List.mem_append.mpr (Or.inr (List.mem_flatMap.mpr ⟨y, hdir, ?_⟩))
      obtain ⟨f, rfl⟩ : ∃ f, fuel = f + 1 := ⟨fuel - 1, by omega⟩
      rw [childrenAux]
      refine List.mem_append.mpr (Or.inl ?_)
      rw [List.mem_filter]
      exact ⟨hx, by simp [hxp]⟩
    · obtain ⟨c, hcdir, hyc⟩ := List.mem_flatMap.mp hrec
      have hcprop : c ∈ cats ∧ c.parent = some nm := by
        have := List.mem_filter.mp hcdir
        simpa using this
      have hcfind := findCat_of_mem_nodup hnd hcprop.1
      have hnmc : catRank nm cats < catRank c.name cats :=
        rank_parent_lt hps hcfind hcprop.2
      refine List.mem_append.mpr (Or.inr (List.mem_flatMap.mpr ⟨c, hcdir, ?_⟩))
      obtain ⟨f, rfl⟩ : ∃ f, fuel = f + 1 := by
        cases fuel with
        | zero => simp [childrenAux] at hyc
        | succ f => exact ⟨f, rfl⟩
      exact ih c.name y x (by omega) hyc hx hxp

/-- Completeness of the descendant collection: every list member whose
ancestor chain passes through `nm` is collected. -/
theorem childrenAux_mem_complete (cats : List Category)
    (hnd : (cats.map Category.name).Nodup) (hps : parentsSeen cats [] = true) :
    ∀ (k : Nat) (x : Category), catRank x.name cats ≤ k → x ∈ cats →
      ∀ nm, x.name ≠ nm → nm ∈ getCategoryHierarchy x.name cats →
      x ∈ getCategoryChildren nm cats := by
  intro k
  induction k with
  | zero =>
    intro x hk hx nm hne hnm
    have hfind := findCat_of_mem_nodup hnd hx
    cases hpc : x.parent with
    | none =>
      rw [hierarchy_rec_none hps hfind hpc] at hnm
      exact absurd (List.mem_singleton.mp hnm).symm hne
    | some p =>
      have := rank_parent_lt hps hfind hpc
      omega
  | succ k ih =>
    intro x hk hx nm hne hnm
    have hfind := findCat_of_mem_nodup hnd hx
    cases hpc : x.parent with
    | none =>
      rw [hierarchy_rec_none hps hfind hpc] at hnm
      exact absurd (List.mem_singleton.mp hnm).symm hne
    | some p =>
      have hplt := rank_parent_lt hps hfind hpc
      rw [hierarchy_rec_some hps hfind hpc] at hnm
      rcases List.mem_append.mp hnm with hp | h1
      · by_cases hpnm : p = nm
        · subst hpnm
          rw [getCategoryChildren, childrenAux]
          refine List.mem_append.mpr (Or.inl ?_)
          rw [List.mem_filter]
          exact ⟨hx, by simp [hpc]⟩
        · have hxL : catRank x.name cats < cats.length := catRank_lt_of_found hfind
          obtain ⟨px, hpx, hpxnm⟩ := found_of_catRank_lt (show catRank p cats < cats.length by omega)
          have hpxmem : px ∈ cats := List.mem_of_find?_eq_some hpx
          have hpx_in : px ∈ getCategoryChildren nm cats := by
            refine ih px ?_ hpxmem nm ?_ ?_
            · rw [hpxnm]; omega
            · rw [hpxnm]; exact hpnm
            · rw [hpxnm]; exact hp
          rw [getCategoryChildren] at hpx_in ⊢
          exact childrenAux_closed cats hnd hps (cats.length + 1) nm px x (by omega)
            hpx_in hx (by rw [hpxnm]; exact hpc)
      · exact absurd (List.mem_singleton.mp h1).symm hne

/-- C8 (amended) -- Over any category list with globally unique names in which
every parent reference names an earlier entry (both hold for loader outputs of
well-formed taxonomies), `descendants(nm)` contains exactly the categories
distinct from `nm` whose ancestor chain passes through `nm`; on the taxonomy
Food & Dining -> Restaurants -> Fine Dining, `descendants("Food & Dining")`
is `[Restaurants, Fine Dining]`, direct child first. -/
theorem descendants_spec :
    (∀ (cats : List Category), (cats.map Category.name).Nodup →
      parentsSeen cats [] = true →
      ∀ (nm : String) (x : Category),
        x ∈ getCategoryChildren nm cats ↔
          (x ∈ cats ∧ x.name ≠ nm ∧ nm ∈ getCategoryHierarchy x.name cats))
    ∧ getCategoryChildren "Food & Dining" (loadCategories c7demo)
        = [⟨"Restaurants", "#ef4444", some "Food & Dining", false⟩,
           ⟨"Fine Dining", "#ef4444", some "Restaurants", false⟩] := by
  constructor
  · intro cats hnd hps nm x
    constructor
    · intro hx
      refine childrenAux_mem_sound cats hnd hps (cats.length + 1) nm x ?_
      rw [getCategoryChildren] at hx
      exact hx
    · rintro ⟨hmem, hne, hchain⟩
      exact childrenAux_mem_complete cats hnd hps (catRank x.name cats) x (le_refl _)
        hmem nm hne hchain
  · decide

/-- A flat list with two entries named `X` under different parents (acyclic,
parents resolve backwards, but names not unique). -/
def c8cex : List Category :=
  [⟨"R", "#aaaaaa", none, false⟩, ⟨"X", "#aaaaaa", some "R", false⟩,
   ⟨"D", "#aaaaaa", some "X", false⟩, ⟨"S", "#aaaaaa", none, false⟩,
   ⟨"X", "#aaaaaa", some "S", false⟩]

/-- C8 counterexample: with the name `X` duplicated, the entry `D` is collected
among `descendants("S")` although its ancestor chain is `[R, X, D]`, which never
passes through `S` -- so the claimed characterization fails for arbitrary
category lists. -/
theorem descendants_refuted :
    ∃ x ∈ getCategoryChildren "S" c8cex,
      "S" ∉ getCategoryHierarchy x.name c8cex := by decide

/-- Witness for the amended C8 at a concrete list, name and entry. -/
theorem descendants_spec_witness :
    (⟨"Fine Dining", "#ef4444", some "Restaurants", false⟩ : Category)
        ∈ getCategoryChildren "Food & Dining" (loadCategories c7demo) ↔
      ((⟨"Fine Dining", "#ef4444", some "Restaurants", false⟩ : Category)
          ∈ loadCategories c7demo
        ∧ "Fine Dining" ≠ "Food & Dining"
        ∧ "Food & Dining" ∈ getCategoryHierarchy "Fine Dining" (loadCategories c7demo)) :=
  descendants_spec.1 (loadCategories c7demo) (by decide) (by decide) "Food & Dining"
    ⟨"Fine Dining", "#ef4444", some "Restaurants", false⟩

/-! ### Subscription aggregation (Analytics.tsx) -/

/-- Embeds `categories.find(c => c.name === t.category)`: an uncategorized
transaction resolves to nothing. -/
def lookupTxnCat (cats : List Category) (t : Txn) : Option Category :=
  match t.category with
  | none => none
  | some nm => findCat nm cats

/-- Truthiness of `cat?.isSubscription` after the lookup. -/
def txnIsSubscription (cats : List Category) (t : Txn) : Bool :=
  match lookupTxnCat cats t with
  | none => false
  | some c => c.isSubscription

/-- Embeds `subscriptionSpending` (Analytics.tsx lines 75-80):
`Math.abs(spending.filter(...).reduce((sum, t) => sum + t.amount, 0))` over
`spending = transactions.filter(t => t.amount < 0)`. -/
def subscriptionSpending (txns : List Txn) (cats : List Category) : ℚ :=
  |(((txns.filter (fun t => decide (t.amount < 0))).filter
      (fun t => txnIsSubscription cats t)).map Txn.amount).sum|

mutual
/-- Modelled from the spec's inheritance wording, for comparison with the
loader: a node's resolved subscription flag is its own when set, else the
inherited (parent's resolved) value; the inherited value at the roots is
`false`; nodes beyond depth 4 are dropped like the loader drops them. -/
def subResolvedTree : YTree → Bool → Nat → List (String × Bool)
  | YTree.node nm _ su ch, inh, lvl =>
    (nm, su.getD inh) ::
      (if lvl < 3 then subResolvedForest ch (su.getD inh) (lvl + 1) else [])

/-- Spec-side resolved subscription flags of a node list, in loader order. -/
def subResolvedForest : YForest → Bool → Nat → List (String × Bool)
  | YForest.nil, _, _ => []
  | YForest.cons y rest, inh, lvl =>
    subResolvedTree y inh lvl ++ subResolvedForest rest inh lvl
end

mutual
theorem flattenTree_sub (y : YTree) :
    ∀ (pN pC : Option String) (pS : Option Bool) (lvl : Nat) (inh : Bool),
      pS.getD false = inh →
      (flattenTree y pN pC pS lvl).map (fun c => (c.name, c.isSubscription))
        = subResolvedTree y inh lvl := by
  cases y with
  | node nm co su ch =>
    intro pN pC pS lvl inh hinh
    rw [flattenTree, subResolvedTree]
    simp only [List.map_cons, List.cons.injEq]
    constructor
    · rw [hinh]
    · by_cases hl : lvl < 3
      · rw [if_pos hl, if_pos hl]
        refine flattenForest_sub ch (some nm) _ _ (lvl + 1) (su.getD inh) ?_
        simp [hinh]
      · rw [if_neg hl, if_neg hl]
        rfl

theorem flattenForest_sub (f : YForest) :
    ∀ (pN pC : Option String) (pS : Option Bool) (lvl : Nat) (inh : Bool),
      pS.getD false = inh →
      (flattenForest f pN pC pS lvl).map (fun c => (c.name, c.isSubscription))
        = subResolvedForest f inh lvl := by
  cases f with
  | nil => intro pN pC pS lvl inh _; rfl
  | cons y rest =>
    intro pN pC pS lvl inh hinh
    rw [flattenForest, subResolvedForest, List.map_append,
      flattenTree_sub y pN pC pS lvl inh hinh,
      flattenForest_sub rest pN pC pS lvl inh hinh]
end

theorem list_sum_nonpos : ∀ (l : List ℚ), (∀ x ∈ l, x ≤ 0) → l.sum ≤ 0 := by
  intro l
  induction l with
  | nil => intro _; simp
  | cons a l ih =>
    intro h
    have ha : a ≤ 0 := h a (List.mem_cons_self a l)
    have hl := ih (fun x hx => h x (List.mem_cons.mpr (Or.inr hx)))
    rw [List.sum_cons]
    linarith

theorem abs_sum_of_nonpos : ∀ (l : List ℚ), (∀ x ∈ l, x ≤ 0) →
    |l.sum| = (l.map (fun x => |x|)).sum := by
  intro l
  induction l with
  | nil => simp
  | cons a l ih =>
    intro h
    have ha : a ≤ 0 := h a (List.mem_cons_self a l)
    have hl : ∀ x ∈ l, x ≤ 0 := fun x hx => h x (List.mem_cons.mpr (Or.inr hx))
    have hsum : l.sum ≤ 0 := list_sum_nonpos l hl
    rw [List.map_cons, List.sum_cons, List.sum_cons, ← ih hl]
    rw [abs_of_nonpos ha, abs_of_nonpos hsum, abs_of_nonpos (add_nonpos ha hsum)]
    ring

theorem subscriptionSpending_eq (txns : List Txn) (cats : List Category) :
    subscriptionSpending txns cats
      = ((txns.filter (fun t => decide (t.amount < 0) && txnIsSubscription cats t)).map
          (fun t => |t.amount|)).sum := by
  rw [subscriptionSpending, List.filter_filter]
  have hcomm : txns.filter (fun a => txnIsSubscription cats a && decide (a.amount < 0))
      = txns.filter (fun t => decide (t.amount < 0) && txnIsSubscription cats t) := by
    apply List.filter_congr
    intro a _
    exact Bool.and_comm _ _
  rw [hcomm, abs_sum_of_nonpos, List.map_map]
  · rfl
  · intro x hx
    obtain ⟨t, ht, rfl⟩ := List.mem_map.mp hx
    have := (List.mem_filter.mp ht).2
    simp only [Bool.and_eq_true, decide_eq_true_eq] at this
    exact le_of_lt this.1

/-- The spec's subscription-rollup demo taxonomy: `Video Streaming` with
`isSubscription` unset under `Streaming Services` with `isSubscription: true`. -/
def c9demo : YForest :=
  YForest.cons (YTree.node "Streaming Services" (some "#a855f7") (some true)
    (YForest.cons (YTree.node "Video Streaming" none none YForest.nil) YForest.nil))
    YForest.nil

/-- C9 -- The subscription total is the sum of `abs(amount)` over spending
transactions (amount < 0) whose looked-up category has a true subscription
flag; the loader stores exactly the inheritance-resolved flag for every node
(own value when set, else the parent's resolved value, `false` at the roots);
in particular `Video Streaming` resolves to `true` and its spending is
included. -/
theorem subscription_total_spec :
    (∀ (txns : List Txn) (cats : List Category),
      subscriptionSpending txns cats
        = ((txns.filter (fun t => decide (t.amount < 0) && txnIsSubscription cats t)).map
            (fun t => |t.amount|)).sum)
    ∧ (∀ (src : YForest),
        (loadCategories src).map (fun c => (c.name, c.isSubscription))
          = subResolvedForest src false 0)
    ∧ txnIsSubscription (loadCategories c9demo)
        ⟨"t1", 0, "NETFLIX", -10, some "Video Streaming", [], false⟩ = true
    ∧ subscriptionSpending
        [⟨"t1", 0, "NETFLIX", -10, some "Video Streaming", [], false⟩]
        (loadCategories c9demo) = 10 := by
  refine ⟨subscriptionSpending_eq, ?_, by decide, ?_⟩
  · intro src
    exact flattenForest_sub src none none none 0 false rfl
  · rw [subscriptionSpending_eq]
    have h1 : ([⟨"t1", 0, "NETFLIX", -10, some "Video Streaming", [], false⟩] : List Txn).filter
        (fun t => decide (t.amount < 0) && txnIsSubscription (loadCategories c9demo) t)
        = [⟨"t1", 0, "NETFLIX", -10, some "Video Streaming", [], false⟩] := by decide
    rw [h1, List.map_cons, List.map_nil, List.sum_cons, List.sum_nil]
    show |(-10 : ℚ)| + 0 = 10
    rw [abs_of_nonpos (by norm_num)]
    norm_num

/-! ### Payee renaming rules (utils/payeeRules.ts) and the categorization
controller (TransactionList.tsx) -/

/-- A payee renaming rule (types.ts `PayeeRenamingRule`). -/
structure PayeeRenamingRule where
  id : String
  pattern : String
  replacement : String
  isRegex : Bool
  enabled : Bool
deriving DecidableEq, Repr

/-- The JavaScript `RegExp` platform object, modelled abstractly:
`compile pat flags` returns `none` exactly when `new RegExp(pat, flags)`
throws; `replaceAll re s rep` is `s.replace(re, rep)` for a compiled global
regex (which does not throw); `test re s` is `re.test(s)`. -/
structure RegexEngine (α : Type) where
  compile : String → String → Option α
  replaceAll : α → String → String → String
  test : α → String → Bool

/-- The character class `[.*+?^${}()|[\]\\]` of `escapeRegex`
(payeeRules.ts lines 89-91). -/
def isRegexMeta (c : Char) : Bool :=
  c == '.' || c == '*' || c == '+' || c == '?' || c == '^' || c == '$'
    || c == Char.ofNat 123 || c == Char.ofNat 125 || c == '(' || c == ')'
    || c == '|' || c == '[' || c == ']' || c == '\\'

/-- Embeds `escapeRegex`: prepend a backslash to every regex metacharacter. -/
def escapeRegex (s : String) : String :=
  String.mk (s.data.flatMap (fun c => if isRegexMeta c then ['\\', c] else [c]))

/-- The pattern a rule hands to the regex engine: raw for regex rules, escaped
for plain-text rules (payeeRules.ts lines 72-80). -/
def effPattern (r : PayeeRenamingRule) : String :=
  if r.isRegex then r.pattern else escapeRegex r.pattern

/-- One loop iteration of `applyRenamingRules`: disabled rules are skipped; the
pattern is compiled with flags `'gi'`; a compile failure leaves the string
unchanged (the `try/catch`); otherwise all matches are replaced. -/
def applyRuleStep {α : Type} (E : RegexEngine α) (res : String)
    (r : PayeeRenamingRule) : String :=
  if !r.enabled then res
  else
    match E.compile (effPattern r) "gi" with
    | none => res
    | some re => E.replaceAll re res r.replacement

/-- Embeds `applyRenamingRules` (payeeRules.ts lines 66-87): fold the rules over the
payee in list order, then `trim()` the result. -/
def applyRenamingRules {α : Type} (E : RegexEngine α) (payee : String)
    (rules : List PayeeRenamingRule) : String :=
  jsTrim (rules.foldl (applyRuleStep E) payee)

theorem foldl_filter_enabled {α : Type} (E : RegexEngine α) :
    ∀ (rules : List PayeeRenamingRule) (s : String),
      rules.foldl (applyRuleStep E) s
        = (rules.filter (fun r => r.enabled)).foldl (applyRuleStep E) s := by
  intro rules
  induction rules with
  | nil => intro s; rfl
  | cons r rs ih =>
    intro s
    by_cases hr : r.enabled = true
    · rw [List.foldl_cons, List.filter_cons, if_pos (by simpa using hr), List.foldl_cons]
      exact ih (applyRuleStep E s r)
    · have hstep : applyRuleStep E s r = s := by
        rw [applyRuleStep]
        simp only [Bool.not_eq_true] at hr
        rw [hr]
        rfl
      rw [List.foldl_cons, hstep, List.filter_cons,
        if_neg (by simpa using hr)]
      exact ih s

/-- C4 -- `applyRules` is total (every branch of the source is guarded by the
`try/catch`, embedded as the `Option`-valued compile): the result is the
trimmed fold over the rules in list order; disabled rules are skipped; an
enabled rule is applied as a replacement of all matches of its pattern
(escaped first when not a regex) compiled case-insensitively and globally
(`'gi'`); an enabled rule whose pattern fails to compile leaves the
intermediate string unchanged and the fold continues. -/
theorem applyRenamingRules_spec {α : Type} (E : RegexEngine α) (payee : String) :
    (∀ (rules : List PayeeRenamingRule), applyRenamingRules E payee rules
        = jsTrim (rules.foldl (applyRuleStep E) payee))
    ∧ (∀ (rules : List PayeeRenamingRule), rules.foldl (applyRuleStep E) payee
        = (rules.filter (fun r => r.enabled)).foldl (applyRuleStep E) payee)
    ∧ (∀ (r : PayeeRenamingRule) (s : String), r.enabled = true →
        E.compile (effPattern r) "gi" = none → applyRuleStep E s r = s)
    ∧ (∀ (r : PayeeRenamingRule) (s : String) (re : α), r.enabled = true →
        E.compile (effPattern r) "gi" = some re →
        applyRuleStep E s r = E.replaceAll re s r.replacement)
    ∧ (∀ r : PayeeRenamingRule, r.isRegex = false →
        effPattern r = escapeRegex r.pattern) := by
  refine ⟨fun rules => rfl, fun rules => foldl_filter_enabled E rules payee, ?_, ?_, ?_⟩
  · intro r s hr hc
    rw [applyRuleStep, hr, hc]
    rfl
  · intro r s re hr hc
    rw [applyRuleStep, hr, hc]
    rfl
  · intro r hr
    rw [effPattern, if_neg (by simp [hr])]

/-- A tiny concrete engine for witnesses: the pattern `"("` fails to compile,
any other pattern compiles to itself; replacement substitutes the whole
string; test compares pattern and subject. -/
def demoEngine : RegexEngine String :=
  { compile := fun pat _ => if pat = "(" then none else some pat,
    replaceAll := fun _ _ rep => rep,
    test := fun pat s => decide (pat = s) }

/-- Witness for C4 at concrete rules: an invalid enabled pattern leaves the
string unchanged, a valid one replaces. -/
theorem applyRenamingRules_spec_witness :
    applyRuleStep demoEngine "PAYEE X" ⟨"r1", "(", "Y", true, true⟩ = "PAYEE X"
    ∧ applyRuleStep demoEngine "PAYEE X" ⟨"r2", "A", "Y", true, true⟩ = "Y" :=
  ⟨(applyRenamingRules_spec demoEngine "p").2.2.1 ⟨"r1", "(", "Y", true, true⟩
      "PAYEE X" rfl rfl,
   (applyRenamingRules_spec demoEngine "p").2.2.2.1 ⟨"r2", "A", "Y", true, true⟩
      "PAYEE X" "A" rfl rfl⟩

/-- Embeds `String.prototype.includes` on strings. -/
def jsIncludes (s sub : String) : Bool :=
  listContainsSub s.data sub.data

/-- The per-rule test of `hasRule` in `handleCategoryChange`
(TransactionList.tsx lines 98-110): regex rules are compiled with flag `'i'`
and tested (a compile failure counts as no match, the `try/catch`); plain
rules use case-insensitive substring containment. -/
def ruleTest {α : Type} (E : RegexEngine α) (payee : String)
    (r : PayeeRenamingRule) : Bool :=
  if r.isRegex then
    match E.compile r.pattern "i" with
    | none => false
    | some re => E.test re payee
  else
    jsIncludes (jsLower payee) (jsLower r.pattern)

/-- A rule matches the payee iff it is enabled and its test succeeds. -/
def ruleMatchesPayee {α : Type} (E : RegexEngine α) (payee : String)
    (r : PayeeRenamingRule) : Bool :=
  r.enabled && ruleTest E payee r

/-- Embeds `handleUpdateTransaction` (App.tsx lines 144-148) restricted to the
`{ category }` update that `handleCategoryChange` issues. -/
def updateCategory (txns : List Txn) (tid : String) (newCat : Option String) :
    List Txn :=
  txns.map (fun t => if t.id = tid then { t with category := newCat } else t)

/-- The dialog payload `showRuleDialog` of TransactionList.tsx. -/
structure RuleDialog where
  payee : String
  category : String
  hasRule : Bool
deriving DecidableEq, Repr

/-- Observable outcome of one categorization action: the persisted transaction
list and the raised dialog, if any. -/
structure CategorizeOutcome where
  txns : List Txn
  dialog : Option RuleDialog
deriving DecidableEq, Repr

/-- The similar-transaction search of `handleCategoryChange` (lines 114-117):
same extracted pattern, different id, different current category. -/
def similarTxns (txns : List Txn) (tid category pattern : String) : List Txn :=
  txns.filter (fun t =>
    decide (extractPayeePattern t.payee = pattern)
      && decide (¬ t.id = tid) && decide (¬ t.category = some category))

/-- Embeds `handleCategoryChange` (TransactionList.tsx lines 87-124): nothing happens
when the id is unknown; otherwise the category update is persisted
immediately (`category || undefined`); then, when both the category and the
extracted pattern are non-empty, the *other* transactions (searched over the
pre-update list, which still holds the old category of `tid`) with the same
extracted pattern and a different category are collected, and the dialog is
raised when there are any, carrying `hasRule`. -/
def handleCategoryChange {α : Type} (E : RegexEngine α) (txns : List Txn)
    (rules : List PayeeRenamingRule) (tid : String) (category : String) :
    CategorizeOutcome :=
  match txns.find? (fun t => decide (t.id = tid)) with
  | none => ⟨txns, none⟩
  | some txn =>
    let updated := updateCategory txns tid
      (if category = "" then none else some category)
    let pattern := extractPayeePattern txn.payee
    let hasRule := rules.any (ruleMatchesPayee E txn.payee)
    if category = "" then ⟨updated, none⟩
    else if pattern = "" then ⟨updated, none⟩
    else if (similarTxns txns tid category pattern).isEmpty then ⟨updated, none⟩
    else ⟨updated, some ⟨pattern, category, hasRule⟩⟩

/-- Outcome of `applyPatternRule` composed with `handleBulkUpdate`: the rule
list after the optional creation, the transaction list after the bulk update,
and the number of bulk persistence calls issued. -/
structure ApplyOutcome where
  rules : List PayeeRenamingRule
  txns : List Txn
  bulkCalls : Nat
deriving DecidableEq, Repr

/-- Embeds `applyPatternRule` (TransactionList.tsx lines 126-149) composed with
`handleBulkUpdate` (App.tsx lines 150-155): when `createRule` is chosen,
`addRenamingRule` appends an enabled regex rule `^<escaped pattern>.*` with
replacement `pattern` (`freshId` stands for the generated id); the matching
ids are re-derived from the current transaction list; the single
`onBulkUpdate` call maps over the list, setting `category` on the id
matches. -/
def applyPatternRule (txns : List Txn) (rules : List PayeeRenamingRule)
    (freshId pattern category : String) (createRule : Bool) : ApplyOutcome :=
  let rules' := if createRule then
      rules ++ [⟨freshId, "^" ++ escapeRegex pattern ++ ".*", pattern, true, true⟩]
    else rules
  let matchingIds := (txns.filter
      (fun t => decide (extractPayeePattern t.payee = pattern))).map Txn.id
  ⟨rules',
   txns.map (fun t => if t.id ∈ matchingIds
      then { t with category := some category } else t),
   1⟩

theorem similarTxns_mem {txns : List Txn} {tid category pattern : String} {t : Txn} :
    t ∈ similarTxns txns tid category pattern ↔
      t ∈ txns ∧ extractPayeePattern t.payee = pattern ∧ t.id ≠ tid
        ∧ t.category ≠ some category := by
  simp [similarTxns, and_assoc]

/-- C2 -- Assigning a non-empty category to the transaction with id `tid`
persists that category immediately (and touches nothing else); the dialog is
raised iff the extracted pattern is non-empty and some other transaction has
the same extracted pattern and a different current category; a raised dialog
carries the pattern, the category, and `hasRule` false iff no enabled rule
matches the raw payee; choosing "create rule and apply" appends an enabled
regex rule `^<escaped pattern>.*` with replacement `pattern`. -/
theorem categorize_flow_spec {α : Type} (E : RegexEngine α)
    (txns : List Txn) (rules : List PayeeRenamingRule) (tid category : String)
    (txn : Txn) (hfind : txns.find? (fun t => decide (t.id = tid)) = some txn)
    (hcat : category ≠ "") :
    ((handleCategoryChange E txns rules tid category).txns
        = updateCategory txns tid (some category))
    ∧ ((handleCategoryChange E txns rules tid category).dialog.isSome = true ↔
        (extractPayeePattern txn.payee ≠ ""
          ∧ ∃ t ∈ txns, extractPayeePattern t.payee = extractPayeePattern txn.payee
              ∧ t.id ≠ tid ∧ t.category ≠ some category))
    ∧ (∀ d, (handleCategoryChange E txns rules tid category).dialog = some d →
        d.payee = extractPayeePattern txn.payee ∧ d.category = category
          ∧ (d.hasRule = false ↔
              ¬ ∃ r ∈ rules, r.enabled = true ∧ ruleTest E txn.payee r = true))
    ∧ (∀ (fid pat : String) (cr : Bool),
        (applyPatternRule txns rules fid pat category cr).rules
          = if cr then
              rules ++ [⟨fid, "^" ++ escapeRegex pat ++ ".*", pat, true, true⟩]
            else rules) := by
  have hsimilar : ∀ pat, (similarTxns txns tid category pat).isEmpty = true ↔
      ¬ ∃ t ∈ txns, extractPayeePattern t.payee = pat ∧ t.id ≠ tid
        ∧ t.category ≠ some category := by
    intro pat
    rw [List.isEmpty_iff]
    constructor
    · intro hnil ⟨t, ht, h1, h2, h3⟩
      have : t ∈ similarTxns txns tid category pat :=
        similarTxns_mem.mpr ⟨ht, h1, h2, h3⟩
      rw [hnil] at this
      cases this
    · intro hno
      by_contra hne
      obtain ⟨t, ht⟩ := List.exists_mem_of_ne_nil _ hne
      obtain ⟨ht1, ht2, ht3, ht4⟩ := similarTxns_mem.mp ht
      exact hno ⟨t, ht1, ht2, ht3, ht4⟩
  simp only [handleCategoryChange, hfind, if_neg hcat]
  refine ⟨?_, ?_, ?_, ?_⟩
  · split
    · rfl
    · split
      · rfl
      · rfl
  · by_cases hpat : extractPayeePattern txn.payee = ""
    · rw [if_pos hpat]
      simp [hpat]
    · rw [if_neg hpat]
      split
      next hsim =>
        simp only [Option.isSome_none, Bool.false_eq_true, false_iff, not_and]
        intro _
        exact (hsimilar (extractPayeePattern txn.payee)).mp hsim
      next hsim =>
        simp only [Option.isSome_some, true_iff]
        refine ⟨hpat, ?_⟩
        have := (hsimilar (extractPayeePattern txn.payee)).not.mp hsim
        push_neg at this
        simpa using this
  · intro d hd
    by_cases hpat : extractPayeePattern txn.payee = ""
    · rw [if_pos hpat] at hd
      cases hd
    · rw [if_neg hpat] at hd
      revert hd
      split
      · intro hd
        cases hd
      · intro hd
        cases hd
        refine ⟨rfl, rfl, ?_⟩
        rw [← Bool.not_eq_true]
        constructor
        · intro hany hex
          apply hany
          rw [List.any_eq_true]
          obtain ⟨r, hr, hen, hte⟩ := hex
          exact ⟨r, hr, by rw [ruleMatchesPayee, hen, hte]; rfl⟩
        · intro hno hany
          rw [List.any_eq_true] at hany
          obtain ⟨r, hr, hmat⟩ := hany
          rw [ruleMatchesPayee, Bool.and_eq_true] at hmat
          exact hno ⟨r, hr, hmat.1, hmat.2⟩
  · intro fid pat cr
    rfl

/-- Concrete transactions for the controller witnesses: two payees with the
same extracted pattern `X`, one other payee. -/
def demoTxns : List Txn :=
  [⟨"a", 100, "X 01-02-03", -5, none, [], false⟩,
   ⟨"b", 200, "X 04-05-06", -7, none, [], false⟩,
   ⟨"c", 300, "OTHER", -9, none, [], false⟩]

/-- Witness for C2: categorizing the first demo transaction persists the
category and raises the dialog. -/
theorem categorize_flow_spec_witness :
    (handleCategoryChange demoEngine demoTxns [] "a" "Food").txns
        = updateCategory demoTxns "a" (some "Food")
    ∧ ((handleCategoryChange demoEngine demoTxns [] "a" "Food").dialog.isSome = true ↔
        (extractPayeePattern "X 01-02-03" ≠ ""
          ∧ ∃ t ∈ demoTxns,
              extractPayeePattern t.payee = extractPayeePattern "X 01-02-03"
                ∧ t.id ≠ "a" ∧ t.category ≠ some "Food")) :=
  ⟨(categorize_flow_spec demoEngine demoTxns [] "a" "Food"
      ⟨"a", 100, "X 01-02-03", -5, none, [], false⟩ (by decide) (by decide)).1,
   (categorize_flow_spec demoEngine demoTxns [] "a" "Food"
      ⟨"a", 100, "X 01-02-03", -5, none, [], false⟩ (by decide) (by decide)).2.1⟩

/-- C3 -- With pairwise distinct transaction ids, a bulk apply (with or
without rule creation) maps the list pointwise: every transaction whose
extracted pattern equals `pattern` gets exactly its category replaced, every
other transaction is kept identical, so length and order are preserved; and
exactly one bulk persistence call is issued. -/
theorem bulk_apply_frame_spec (txns : List Txn) (rules : List PayeeRenamingRule)
    (freshId pattern category : String) (createRule : Bool)
    (hids : (txns.map Txn.id).Nodup) :
    ((applyPatternRule txns rules freshId pattern category createRule).txns
        = txns.map (fun t => if extractPayeePattern t.payee = pattern
            then { t with category := some category } else t))
    ∧ (applyPatternRule txns rules freshId pattern category createRule).bulkCalls
        = 1 := by
  refine ⟨?_, rfl⟩
  show txns.map _ = txns.map _
  apply List.map_congr_left
  intro t ht
  have hiff : (t.id ∈ (txns.filter
      (fun t => decide (extractPayeePattern t.payee = pattern))).map Txn.id)
        ↔ extractPayeePattern t.payee = pattern := by
    constructor
    · intro hmem
      obtain ⟨t', ht', hid⟩ := List.mem_map.mp hmem
      obtain ⟨ht'm, ht'p⟩ := List.mem_filter.mp ht'
      have : t' = t := List.inj_on_of_nodup_map hids ht'm ht hid
      rw [← this]
      simpa using ht'p
    · intro hp
      exact List.mem_map.mpr ⟨t, List.mem_filter.mpr ⟨ht, by simpa using hp⟩, rfl⟩
  by_cases hp : extractPayeePattern t.payee = pattern
  · rw [if_pos (hiff.mpr hp), if_pos hp]
  · rw [if_neg (fun hmem => hp (hiff.mp hmem)), if_neg hp]

/-- Witness for C3 on the demo transactions: both `X`-pattern transactions are
categorized, `OTHER` is untouched, one bulk call. -/
theorem bulk_apply_frame_spec_witness :
    ((applyPatternRule demoTxns [] "r9" "X" "Food" true).txns
        = demoTxns.map (fun t => if extractPayeePattern t.payee = "X"
            then { t with category := some "Food" } else t))
    ∧ (applyPatternRule demoTxns [] "r9" "X" "Food" true).bulkCalls = 1 :=
  bulk_apply_frame_spec demoTxns [] "r9" "X" "Food" true (by decide)

end WhereMoneyGo
